import Mathlib

/-!
# Verification of the Portfolio Optimizer (`src/app.py`)

The repository is a single Streamlit script: it parses a comma-separated
ticker string, a three-valued risk selector and an integer percentage slider,
downloads prices, forward/backward fills gaps, estimates expected returns and
a sample covariance, runs a mean-variance optimization through the external
`pypfopt` library, cleans the weights and renders the allocation and
performance metrics, with a single `try/except` wrapping the whole run.

This file embeds:
* the string/ticker parsing (from `src/app.py` lines 18-23),
* the gap filling `ffill` then `bfill` (lines 32-33),
* the risk-level branch selecting an objective (lines 44-49),
* the control flow of the whole button handler as an event trace
  (lines 26-95), and
* the numerical core (estimation, constrained optimization, weight cleaning,
  performance scalars), whose implementation lives in the external
  `pypfopt`/`cvxpy` libraries and is therefore modelled from the spec where
  noted.

Vectors of weights and expected returns are functions `Fin n → ℚ`; the
covariance model is `Fin n → Fin n → ℚ`.  Volatility and the Sharpe ratio,
which require a square root, live in `ℝ`.
-/

namespace PortfolioOpt

/-! ## Ticker parsing (`src/app.py` lines 18-23)

Python strings are modelled as `List Char`.  The source computes
`[ticker.strip().upper() for ticker in tickers_input.split(',')]`. -/

/-- Python `str.upper`: uppercase every character (on the ASCII range
tickers use, `Char.toUpper` is exactly Python's mapping). -/
def pyUpper (s : List Char) : List Char := s.map Char.toUpper

/-- Python `str.strip`: drop leading and trailing whitespace. -/
def pyStrip (s : List Char) : List Char :=
  ((s.dropWhile Char.isWhitespace).reverse.dropWhile Char.isWhitespace).reverse

/-- Python `str.split(',')`: split on every comma, keeping empty fields. -/
def splitComma : List Char → List (List Char)
  | [] => [[]]
  | c :: cs =>
    match splitComma cs with
    | [] => [[]]
    | t :: ts => if c = ',' then [] :: t :: ts else (c :: t) :: ts

/-- Rejoin comma-separated fields (inverse of `splitComma`, used to state
that the split is exactly on commas). -/
def joinComma : List (List Char) → List Char
  | [] => []
  | [t] => t
  | t :: ts => t ++ ',' :: joinComma ts

/-- `tickers = [ticker.strip().upper() for ticker in tickers_input.split(',')]`
(`src/app.py` line 23). -/
def parseTickers (s : List Char) : List (List Char) :=
  (splitComma s).map (fun t => pyUpper (pyStrip t))

/-- The slider value 10-100 is mapped to the uniform upper bound
`max_weight/100` (`src/app.py` lines 20 and 42). -/
def maxWeightBound (p : ℕ) : ℚ := (p : ℚ) / 100

/-! ## Gap filling (`src/app.py` lines 32-33)

`stock_data.ffill(inplace=True)` then `stock_data.bfill(inplace=True)`.
A price column is a `List (Option ℚ)`, `none` being a missing value. -/

/-- Forward fill with a carried last observation. -/
def ffillFrom (acc : Option ℚ) : List (Option ℚ) → List (Option ℚ)
  | [] => []
  | x :: xs =>
    match x with
    | some v => some v :: ffillFrom (some v) xs
    | none => acc :: ffillFrom acc xs

/-- pandas `ffill` on one column. -/
def ffill (col : List (Option ℚ)) : List (Option ℚ) := ffillFrom none col

/-- pandas `bfill` on one column: forward fill of the reversed column. -/
def bfill (col : List (Option ℚ)) : List (Option ℚ) :=
  (ffill col.reverse).reverse

/-- Lines 32-33 of `src/app.py`: forward fill, then backward fill. -/
def fillGaps (col : List (Option ℚ)) : List (Option ℚ) := bfill (ffill col)

/-- The observed (non-missing) values of a column. -/
def observed (col : List (Option ℚ)) : List ℚ := col.filterMap id

/-! ## Return and risk estimation (`src/app.py` lines 36-37)

The script calls `expected_returns.mean_historical_return` and
`risk_models.sample_cov` from the external `pypfopt` library; their
implementations are not part of this repository. -/

/-- Periodic returns `p_t / p_{t-1} - 1` of a price series. -/
def dailyReturns : List ℚ → List ℚ
  | [] => []
  | [_] => []
  | p :: q :: rest => (q / p - 1) :: dailyReturns (q :: rest)

/-- Arithmetic mean of a list (0 for the empty list). -/
def listMean (xs : List ℚ) : ℚ := xs.sum / (xs.length : ℚ)

/-- Modelled from the spec: `expected_returns.mean_historical_return`
(external library, not in `src/`) — the historical mean of periodic returns,
annualized by the standard daily factor 252. -/
def meanHistoricalReturn (prices : List ℚ) : ℚ :=
  252 * listMean (dailyReturns prices)

/-- Sample covariance (denominator `length - 1`) of two aligned lists. -/
def sampleCovList (xs ys : List ℚ) : ℚ :=
  (((xs.zip ys).map fun p => (p.1 - listMean xs) * (p.2 - listMean ys)).sum) /
    (((xs.zip ys).length - 1 : ℕ) : ℚ)

/-- Modelled from the spec: `risk_models.sample_cov` (external library, not in
`src/`) — annualized sample covariance of periodic returns. -/
def annualizedCov (ps qs : List ℚ) : ℚ :=
  252 * sampleCovList (dailyReturns ps) (dailyReturns qs)

/-! ## The constrained optimization (`src/app.py` lines 40-49)

`EfficientFrontier(mu, S)` with the added constraints `w >= 0` and
`w <= max_weight/100`, and one of `min_volatility`, `max_sharpe`,
`max_quadratic_utility` depending on the risk level.  The solver itself is
external (`pypfopt`/`cvxpy`); the objectives are modelled from the spec as
optimality predicates over the feasible set. -/

/-- Errors a run can surface (the script's `except Exception` catches all). -/
inductive CoreError where
  | dataFetch
  | solverFailure
  | degenerateSolution
  deriving DecidableEq, Repr

/-- Dot product of two weight/return vectors. -/
def dot {n : ℕ} (v w : Fin n → ℚ) : ℚ := ∑ i, v i * w i

/-- Portfolio variance `wᵗ S w`. -/
def quadForm {n : ℕ} (S : Fin n → Fin n → ℚ) (w : Fin n → ℚ) : ℚ :=
  ∑ i, ∑ j, w i * S i j * w j

/-- The constraint set of `src/app.py` lines 41-42 plus the implicit simplex
constraint: `0 ≤ wᵢ ≤ u` for every asset and `Σ wᵢ = 1`. -/
def feasible {n : ℕ} (u : ℚ) (w : Fin n → ℚ) : Prop :=
  (∀ i, 0 ≤ w i ∧ w i ≤ u) ∧ ∑ i, w i = 1

instance {n : ℕ} (u : ℚ) (w : Fin n → ℚ) : Decidable (feasible u w) := by
  unfold feasible; infer_instance

/-- The three objectives reachable from the risk-level branch. -/
inductive Objective where
  | minVolatility
  | maxSharpe
  | maxQuadraticUtility
  deriving DecidableEq, Repr

/-- The risk-level branch of `src/app.py` lines 44-49: `"Low"` selects
`min_volatility`, `"High"` selects `max_sharpe`, anything else (the slider
only offers `"Medium"` as the remaining value) selects
`max_quadratic_utility`. -/
def objectiveFor (riskLevel : String) : Objective :=
  if riskLevel = "Low" then .minVolatility
  else if riskLevel = "High" then .maxSharpe
  else .maxQuadraticUtility

/-- Sharpe ratio value `(wᵗ mu − r_f) / sqrt(wᵗ S w)` of a candidate. -/
noncomputable def sharpeVal {n : ℕ} (mu : Fin n → ℚ) (S : Fin n → Fin n → ℚ)
    (rf : ℚ) (w : Fin n → ℚ) : ℝ :=
  ((dot w mu - rf : ℚ) : ℝ) / Real.sqrt ((quadForm S w : ℚ) : ℝ)

/-- Quadratic utility `wᵗ mu − (λ/2)·wᵗ S w`. -/
def quadUtility {n : ℕ} (mu : Fin n → ℚ) (S : Fin n → Fin n → ℚ)
    (lam : ℚ) (w : Fin n → ℚ) : ℚ :=
  dot w mu - lam / 2 * quadForm S w

/-- Modelled from the spec: what it means for a weight vector to be a
solution the external solver may return for each objective
(`min_volatility` / `max_sharpe` / `max_quadratic_utility`, whose
implementations live in `pypfopt`, not in `src/`): a feasible point that is
optimal for the objective over the whole feasible set.  The risk-aversion
constant of the quadratic utility is the library default `λ = 1`. -/
def isOptimalFor {n : ℕ} : Objective → (Fin n → ℚ) → (Fin n → Fin n → ℚ) →
    ℚ → ℚ → (Fin n → ℚ) → Prop
  | .minVolatility, _mu, S, _rf, u, w =>
      feasible u w ∧ ∀ w', feasible u w' → quadForm S w ≤ quadForm S w'
  | .maxSharpe, mu, S, rf, u, w =>
      feasible u w ∧ ∀ w', feasible u w' → sharpeVal mu S rf w' ≤ sharpeVal mu S rf w
  | .maxQuadraticUtility, mu, S, _rf, u, w =>
      feasible u w ∧ ∀ w', feasible u w' → quadUtility mu S 1 w' ≤ quadUtility mu S 1 w

/-! ## Weight cleaning (`src/app.py` line 51)

`ef.clean_weights()` is external library code. -/

/-- Clip weights of absolute value below the cutoff to exactly zero. -/
def clipSmall {n : ℕ} (cutoff : ℚ) (w : Fin n → ℚ) : Fin n → ℚ :=
  fun i => if |w i| < cutoff then 0 else w i

/-- Modelled from the spec: `ef.clean_weights()` (external library, not in
`src/`) — clip numerically negligible weights (below the cutoff, the spec's
example value 1e-4, in absolute value) to exactly zero and renormalize so the
sum is exactly 1, preserving relative proportions among retained assets. -/
def cleanWeights {n : ℕ} (cutoff : ℚ) (w : Fin n → ℚ) : Fin n → ℚ :=
  if (∑ i, clipSmall cutoff w i) = 0 then clipSmall cutoff w
  else fun i => clipSmall cutoff w i / ∑ k, clipSmall cutoff w k

/-! ## Performance scalars (`src/app.py` line 75)

`ef.portfolio_performance()` is external library code; modelled from the
spec's step 6. -/

/-- `expected_return = wᵗ mu`. -/
def expectedReturn {n : ℕ} (mu w : Fin n → ℚ) : ℚ := dot w mu

/-- `expected_volatility = sqrt(wᵗ S w)`. -/
noncomputable def expectedVolatility {n : ℕ} (S : Fin n → Fin n → ℚ)
    (w : Fin n → ℚ) : ℝ :=
  Real.sqrt ((quadForm S w : ℚ) : ℝ)

/-- `sharpe_ratio = (expected_return − r_f) / expected_volatility`. -/
noncomputable def sharpeRatio {n : ℕ} (mu : Fin n → ℚ) (S : Fin n → Fin n → ℚ)
    (rf : ℚ) (w : Fin n → ℚ) : ℝ :=
  ((expectedReturn mu w - rf : ℚ) : ℝ) / expectedVolatility S w

/-- Modelled from the spec: `ef.portfolio_performance()` (external library,
not in `src/`) — reports the expected return and the portfolio variance
(whose square root is the volatility), failing with a degenerate-solution
error when the volatility is zero, i.e. exactly when `wᵗ S w = 0`. -/
def portfolioPerformance {n : ℕ} (mu : Fin n → ℚ) (S : Fin n → Fin n → ℚ)
    (w : Fin n → ℚ) : Except CoreError (ℚ × ℚ) :=
  if quadForm S w = 0 then .error .degenerateSolution
  else .ok (expectedReturn mu w, quadForm S w)

/-! ## The button handler as an event trace (`src/app.py` lines 26-95)

One press of the optimize button runs the whole pipeline inside a single
`try`/`except Exception` block.  Streamlit renders each `st.*` call as it is
executed, so outputs emitted before an exception stay on screen; the
`except` arm appends exactly one error message (line 95).  The trace below
records, in source order, what one run delivers to the user. -/

/-- The `Close`-price table returned by the market-data provider
(`yf.download(...)['Close']`, line 30-31): one price column per asset. -/
structure MarketData where
  columns : List (List Char × List (Option ℚ))

/-- The user-visible outputs of one run, in the order the script emits them,
plus a marker for the solver invocation inside the objective call. -/
inductive Ev where
  | solverInvoked
  | weightsTable (ws : List (List Char × ℚ))
  | pieChart
  | perfMetrics (ret pvar : ℚ)
  | historyChart
  | errorMsg (e : CoreError)
  deriving DecidableEq, Repr

/-- The numeric solver; the pipeline is parametric in it because the actual
solver is external library code. -/
def SolveFn : Type :=
  Objective → (n : ℕ) → (Fin n → ℚ) → (Fin n → Fin n → ℚ) → ℚ →
    Except CoreError (Fin n → ℚ)

/-- Modelled from the spec: the external convex solver
(`pypfopt`/`cvxpy`, not in `src/`).  The spec determines only that it fails
when the constraint set is infeasible (for the uniform bound, exactly when
`n·u < 1` or `n = 0`) and otherwise returns a feasible point; which optimum
it returns is irrelevant to every theorem below that uses it, so for
executability it is modelled as returning the uniform feasible point. -/
def modelSolve : SolveFn := fun _obj n _mu _S u =>
  if 1 ≤ (n : ℚ) * u then .ok (fun _ => 1 / (n : ℚ)) else .error .solverFailure

/-- The gap-filled observed prices of one downloaded column
(`src/app.py` lines 31-33). -/
def colPrices (md : MarketData) (i : Fin md.columns.length) : List ℚ :=
  observed (fillGaps (md.columns.get i).2)

/-- The expected-return vector the script estimates (`src/app.py` line 36). -/
def muOf (md : MarketData) : Fin md.columns.length → ℚ :=
  fun i => meanHistoricalReturn (colPrices md i)

/-- The covariance model the script estimates (`src/app.py` line 37). -/
def covOf (md : MarketData) : Fin md.columns.length → Fin md.columns.length → ℚ :=
  fun i j => annualizedCov (colPrices md i) (colPrices md j)

/-- The outputs rendered after the solver returned weights: the allocation
table and pie chart of column 1 (`src/app.py` lines 56-71), then the
performance metrics and history chart of column 2 (lines 73-92); an
exception in the performance computation ends the run with the error message
of line 95, after the column-1 outputs were already delivered. -/
def renderResults (md : MarketData) (w : Fin md.columns.length → ℚ) : List Ev :=
  .weightsTable ((List.finRange md.columns.length).map
      fun i => ((md.columns.get i).1, cleanWeights (1 / 10000) w i)) ::
  .pieChart ::
  match portfolioPerformance (muOf md) (covOf md) (cleanWeights (1 / 10000) w) with
  | .error e => [.errorMsg e]
  | .ok (r, v) => [.perfMetrics r v, .historyChart]

/-- One run of the button handler (`src/app.py` lines 26-95), as the list of
outputs it delivers.  `dl` is the result of the external data download
(lines 30-31); an exception at any step ends the run with the single error
message of line 95, leaving everything already emitted in place.  Note the
source performs no feasibility check between building the constraints and
calling the objective: the solver is invoked unconditionally. -/
def appTrace (solve : SolveFn) (dl : Except CoreError MarketData)
    (riskLevel : String) (maxWeight : ℕ) : List Ev :=
  match dl with
  | .error e => [.errorMsg e]
  | .ok md =>
    .solverInvoked ::
    match solve (objectiveFor riskLevel) md.columns.length (muOf md) (covOf md)
        (maxWeightBound maxWeight) with
    | .error e => [.errorMsg e]
    | .ok w => renderResults md w

/-- The allocation table a run delivers, when it delivers one. -/
def tableOf (evs : List Ev) : Option (List (List Char × ℚ)) :=
  evs.findSome? fun e =>
    match e with
    | .weightsTable ws => some ws
    | _ => none

/-- How many error messages a run delivers. -/
def errorCount (evs : List Ev) : ℕ :=
  (evs.filter fun e =>
    match e with
    | .errorMsg _ => true
    | _ => false).length

/-- A two-asset download used to exercise an infeasible bound. -/
def mdTwoAssets : MarketData :=
  ⟨[(['A'], [some 1, some 2]), (['B'], [some 1, some 2])]⟩

/-- A one-asset download with a constant price, whose estimated variance is
zero. -/
def mdDegenerate : MarketData := ⟨[(['A'], [some 1, some 1, some 1])]⟩

/-! ## Lemmas on gap filling -/

theorem ffillFrom_isSome {a : ℚ} (l : List (Option ℚ)) :
    ∀ y ∈ ffillFrom (some a) l, y.isSome := by
  induction l generalizing a with
  | nil => simp [ffillFrom]
  | cons x xs ih =>
    cases x with
    | some v => simpa [ffillFrom] using ih (a := v)
    | none => simpa [ffillFrom] using ih (a := a)

theorem ffillFrom_ends_some (l : List (Option ℚ)) :
    ∀ acc : Option ℚ, ((∃ x ∈ l, x.isSome) ∨ (acc.isSome ∧ l ≠ [])) →
      ∃ m a, ffillFrom acc l = m ++ [some a] := by
  induction l with
  | nil =>
    rintro acc (⟨x, hx, -⟩ | ⟨-, h⟩)
    · exact absurd hx (by simp)
    · exact absurd rfl h
  | cons x xs ih =>
    rintro acc h
    cases x with
    | some v =>
      cases xs with
      | nil => exact ⟨[], v, rfl⟩
      | cons z zs =>
        obtain ⟨m, a, hm⟩ := ih (some v) (Or.inr ⟨rfl, by simp⟩)
        refine ⟨some v :: m, a, ?_⟩
        rw [show ffillFrom acc (some v :: z :: zs)
              = some v :: ffillFrom (some v) (z :: zs) from rfl, hm, List.cons_append]
    | none =>
      by_cases hxs : xs = []
      · subst hxs
        rcases h with ⟨x, hx, hs⟩ | ⟨hacc, -⟩
        · simp only [List.mem_singleton] at hx
          subst hx
          simp at hs
        · obtain ⟨a, rfl⟩ := Option.isSome_iff_exists.mp hacc
          exact ⟨[], a, rfl⟩
      · have h' : (∃ y ∈ xs, y.isSome) ∨ (acc.isSome ∧ xs ≠ []) := by
          rcases h with ⟨x, hx, hs⟩ | ⟨hacc, -⟩
          · rcases List.mem_cons.mp hx with rfl | hx'
            · simp at hs
            · exact Or.inl ⟨x, hx', hs⟩
          · exact Or.inr ⟨hacc, hxs⟩
        obtain ⟨m, a, hm⟩ := ih acc h'
        refine ⟨acc :: m, a, ?_⟩
        rw [show ffillFrom acc (none :: xs) = acc :: ffillFrom acc xs from rfl, hm,
          List.cons_append]

theorem ffillFrom_none_of_allNone :
    ∀ l : List (Option ℚ), (∀ x ∈ l, x = none) → ffillFrom none l = l := by
  intro l h
  induction l with
  | nil => rfl
  | cons x xs ih =>
    have hx : x = none := h x (by simp)
    subst hx
    simp only [ffillFrom]
    exact congrArg (none :: ·) (ih fun y hy => h y (List.mem_cons_of_mem _ hy))

theorem fillGaps_allSome {l : List (Option ℚ)} (h : ∃ x ∈ l, x.isSome) :
    ∀ y ∈ fillGaps l, y.isSome := by
  obtain ⟨m, a, hm⟩ := ffillFrom_ends_some l none (Or.inl h)
  intro y hy
  have hrev : (ffill l).reverse = some a :: m.reverse := by
    rw [show ffill l = ffillFrom none l from rfl, hm]
    simp
  unfold fillGaps bfill at hy
  rw [List.mem_reverse] at hy
  rw [show ffill (ffill l).reverse = ffillFrom none (ffill l).reverse from rfl, hrev] at hy
  rw [show ffillFrom none (some a :: m.reverse)
        = some a :: ffillFrom (some a) m.reverse from rfl] at hy
  rcases List.mem_cons.mp hy with rfl | hy'
  · rfl
  · exact ffillFrom_isSome _ y hy'

theorem fillGaps_allNone {l : List (Option ℚ)} (h : ∀ x ∈ l, x = none) :
    fillGaps l = l := by
  have h1 : ffill l = l := ffillFrom_none_of_allNone l h
  have h2 : ffill l.reverse = l.reverse :=
    ffillFrom_none_of_allNone l.reverse fun x hx => h x (List.mem_reverse.mp hx)
  unfold fillGaps bfill
  rw [h1, h2, List.reverse_reverse]

/-- C10: the gap-filling step applies forward fill and then backward fill,
in that order; after it, a column with at least one observed price has no
missing value left, while a column with no observed price stays entirely
missing (unchanged); and the pipeline passes the filled columns straight to
estimation — a run on downloaded data always reaches the solver invocation,
with no per-asset failure before it. -/
theorem C10_gap_filling (col : List (Option ℚ)) :
    fillGaps col = bfill (ffill col) ∧
    ((∃ x ∈ col, x.isSome) → ∀ y ∈ fillGaps col, y.isSome) ∧
    ((∀ x ∈ col, x = none) → fillGaps col = col) ∧
    (∀ (solve : SolveFn) (md : MarketData) (riskLevel : String) (mw : ℕ),
      ∃ rest, appTrace solve (.ok md) riskLevel mw = .solverInvoked :: rest) := by
  refine ⟨rfl, fun h => fillGaps_allSome h, fun h => fillGaps_allNone h, ?_⟩
  intro solve md riskLevel mw
  exact ⟨_, rfl⟩

/-- Witness for C10 at concrete columns: a column with one observation is
fully filled, an all-missing column is left unchanged. -/
theorem C10_gap_filling_witness :
    (∀ y ∈ fillGaps [none, some 5, none], y.isSome) ∧
    fillGaps [none, none] = [none, none] :=
  ⟨(C10_gap_filling [none, some 5, none]).2.1 (by decide),
   (C10_gap_filling [none, none]).2.2.1 (by decide)⟩

/-! ## Lemmas on characters and ticker parsing -/

theorem char_toNat_le_of_le {a c : Char} (h : a ≤ c) : a.toNat ≤ c.toNat := h

theorem toNat_ofNat_valid {n : ℕ} (h : n.isValidChar) : (Char.ofNat n).toNat = n := by
  rw [Char.ofNat, dif_pos h]
  rfl

theorem toNat_toUpper_of_lower {c : Char} (h1 : 97 ≤ c.toNat) (h2 : c.toNat ≤ 122) :
    c.toUpper.toNat = c.toNat - 32 := by
  rw [Char.toUpper, if_pos ⟨h1, h2⟩]
  exact toNat_ofNat_valid (Or.inl (by omega))

theorem toUpper_of_not_lower {c : Char} (h : ¬(97 ≤ c.toNat ∧ c.toNat ≤ 122)) :
    c.toUpper = c := by
  rw [Char.toUpper, if_neg h]

theorem not_lower_toUpper (c : Char) : ¬('a' ≤ c.toUpper ∧ c.toUpper ≤ 'z') := by
  by_cases hc : 97 ≤ c.toNat ∧ c.toNat ≤ 122
  · rintro ⟨h1, -⟩
    have hn := char_toNat_le_of_le h1
    rw [toNat_toUpper_of_lower hc.1 hc.2] at hn
    have ha : ('a').toNat = 97 := rfl
    omega
  · rw [toUpper_of_not_lower hc]
    rintro ⟨h1, h2⟩
    exact hc ⟨char_toNat_le_of_le h1, char_toNat_le_of_le h2⟩

theorem char_eq_toNat {c d : Char} (h : c = d) : c.toNat = d.toNat := by rw [h]

theorem not_whitespace_toUpper {c : Char} (h : ¬ c.isWhitespace) :
    ¬ c.toUpper.isWhitespace := by
  by_cases hc : 97 ≤ c.toNat ∧ c.toNat ≤ 122
  · intro hw
    have hn := toNat_toUpper_of_lower hc.1 hc.2
    simp only [Char.isWhitespace, Bool.or_eq_true, decide_eq_true_eq] at hw
    rcases hw with ((h' | h') | h') | h' <;>
      · have := char_eq_toNat h'
        simp at this
        omega
  · rwa [toUpper_of_not_lower hc]

theorem pyStrip_getLast?_not_ws {s : List Char} {a : Char}
    (h : (pyStrip s).getLast? = some a) : a.isWhitespace = false := by
  unfold pyStrip at h
  rw [List.getLast?_reverse] at h
  have hh := List.head?_dropWhile_not Char.isWhitespace
    (s.dropWhile Char.isWhitespace).reverse
  rw [h] at hh
  exact hh

theorem pyStrip_head?_not_ws {s : List Char} {a : Char}
    (h : (pyStrip s).head? = some a) : a.isWhitespace = false := by
  unfold pyStrip at h
  rw [List.head?_reverse] at h
  obtain ⟨t, ht⟩ := List.dropWhile_suffix (l := (s.dropWhile Char.isWhitespace).reverse)
    Char.isWhitespace
  have hne : (s.dropWhile Char.isWhitespace).reverse.dropWhile Char.isWhitespace ≠ [] := by
    intro hc
    rw [hc] at h
    simp at h
  have h2 : (s.dropWhile Char.isWhitespace).reverse.getLast? = some a := by
    rw [← ht, List.getLast?_append_of_ne_nil _ hne, h]
  rw [List.getLast?_reverse] at h2
  have hh := List.head?_dropWhile_not Char.isWhitespace s
  rw [h2] at hh
  exact hh

theorem splitComma_ne_nil : ∀ s : List Char, splitComma s ≠ []
  | [] => by simp [splitComma]
  | c :: cs => by
    simp only [splitComma]
    rcases h : splitComma cs with _ | ⟨t, ts⟩ <;> simp [h]
    split <;> simp

theorem joinComma_splitComma : ∀ s : List Char, joinComma (splitComma s) = s
  | [] => rfl
  | c :: cs => by
    have ih := joinComma_splitComma cs
    rcases h : splitComma cs with _ | ⟨t, ts⟩
    · exact absurd h (splitComma_ne_nil cs)
    · rw [h] at ih
      simp only [splitComma, h]
      by_cases hc : c = ','
      · subst hc
        rw [if_pos rfl]
        rw [show joinComma ([] :: t :: ts) = ',' :: joinComma (t :: ts) from rfl, ih]
      · rw [if_neg hc]
        cases ts with
        | nil => exact congrArg (c :: ·) ih
        | cons t2 ts2 =>
          rw [show joinComma ((c :: t) :: t2 :: ts2)
                = c :: joinComma (t :: t2 :: ts2) from rfl, ih]

/-- C9: the request surface parses the ticker input by splitting on commas
(rejoining the fields with commas restores the input), trimming and
uppercasing each field — so every parsed ticker contains no lowercase letter
and has no leading or trailing whitespace — and maps the slider percentage
`p ∈ [10, 100]` to the uniform upper bound `u = p / 100 ∈ [1/10, 1]`. -/
theorem C9_request_parsing (s : List Char) (p : ℕ) (hp1 : 10 ≤ p) (hp2 : p ≤ 100) :
    joinComma (splitComma s) = s ∧
    parseTickers s = (splitComma s).map (fun t => pyUpper (pyStrip t)) ∧
    (∀ t ∈ parseTickers s, ∀ c ∈ t, ¬('a' ≤ c ∧ c ≤ 'z')) ∧
    (∀ t ∈ parseTickers s, ∀ a : Char,
      t.head? = some a ∨ t.getLast? = some a → a.isWhitespace = false) ∧
    maxWeightBound p = (p : ℚ) / 100 ∧
    1 / 10 ≤ maxWeightBound p ∧ maxWeightBound p ≤ 1 := by
  refine ⟨joinComma_splitComma s, rfl, ?_, ?_, rfl, ?_, ?_⟩
  · intro t ht c hct
    obtain ⟨raw, -, rfl⟩ := List.mem_map.mp ht
    obtain ⟨d, -, rfl⟩ := List.mem_map.mp hct
    exact not_lower_toUpper d
  · intro t ht a ha
    obtain ⟨raw, -, rfl⟩ := List.mem_map.mp ht
    simp only [pyUpper] at ha
    rcases ha with ha | ha
    · rw [List.head?_map] at ha
      obtain ⟨b, hb, rfl⟩ := Option.map_eq_some'.mp ha
      have hbw : ¬ b.isWhitespace := by simp [pyStrip_head?_not_ws hb]
      simpa using not_whitespace_toUpper hbw
    · rw [List.getLast?_map] at ha
      obtain ⟨b, hb, rfl⟩ := Option.map_eq_some'.mp ha
      have hbw : ¬ b.isWhitespace := by simp [pyStrip_getLast?_not_ws hb]
      simpa using not_whitespace_toUpper hbw
  · have h10 : (10 : ℚ) ≤ (p : ℚ) := by exact_mod_cast hp1
    unfold maxWeightBound
    linarith
  · have h100 : (p : ℚ) ≤ 100 := by exact_mod_cast hp2
    unfold maxWeightBound
    linarith

/-- Witness for C9 at a concrete input string and slider value. -/
theorem C9_request_parsing_witness :
    parseTickers ("gs, jpm ,Ms").toList = ["GS".toList, "JPM".toList, "MS".toList] ∧
    maxWeightBound 40 = 2 / 5 ∧ 1 / 10 ≤ maxWeightBound 40 :=
  ⟨by decide, by norm_num [maxWeightBound],
    (C9_request_parsing ("gs, jpm ,Ms").toList 40 (by norm_num) (by norm_num)).2.2.2.2.2.1⟩

/-! ## Lemmas on the optimization predicates -/

theorem isOptimalFor_feasible {n : ℕ} {obj : Objective} {mu : Fin n → ℚ}
    {S : Fin n → Fin n → ℚ} {rf u : ℚ} {w : Fin n → ℚ}
    (h : isOptimalFor obj mu S rf u w) : feasible u w := by
  cases obj <;> exact h.1

theorem feasible_fin_one {u : ℚ} {w : Fin 1 → ℚ} (h : feasible u w) : w = ![1] := by
  funext i
  have hs := h.2
  rw [Fin.sum_univ_one] at hs
  fin_cases i
  simpa using hs

/-- C2: the risk selector maps `"Low"` to variance minimization (an objective
that ignores `mu` entirely), `"High"` to Sharpe-ratio maximization, and every
remaining value — the slider's only other value is `"Medium"` — to
quadratic-utility maximization with the fixed risk-aversion constant `λ = 1`;
all three optimality predicates impose the same bound constraints
`0 ≤ wᵢ ≤ u`, `Σ wᵢ = 1`. -/
theorem C2_risk_selector {n : ℕ} (mu mu' : Fin n → ℚ) (S : Fin n → Fin n → ℚ)
    (rf u : ℚ) (w : Fin n → ℚ) (riskLevel : String)
    (hM : riskLevel ≠ "Low" ∧ riskLevel ≠ "High") :
    objectiveFor "Low" = .minVolatility ∧
    objectiveFor "High" = .maxSharpe ∧
    objectiveFor riskLevel = .maxQuadraticUtility ∧
    (isOptimalFor .minVolatility mu S rf u w ↔ isOptimalFor .minVolatility mu' S rf u w) ∧
    (∀ obj : Objective, isOptimalFor obj mu S rf u w → feasible u w) ∧
    (isOptimalFor .maxQuadraticUtility mu S rf u w ↔
      feasible u w ∧ ∀ w', feasible u w' → quadUtility mu S 1 w' ≤ quadUtility mu S 1 w) ∧
    (isOptimalFor .maxSharpe mu S rf u w ↔
      feasible u w ∧ ∀ w', feasible u w' → sharpeVal mu S rf w' ≤ sharpeVal mu S rf w) := by
  refine ⟨rfl, rfl, ?_, Iff.rfl, fun _ h => isOptimalFor_feasible h, Iff.rfl, Iff.rfl⟩
  unfold objectiveFor
  rw [if_neg hM.1, if_neg hM.2]

/-- Witness for C2 at the slider's `"Medium"` value and a one-asset
instance. -/
theorem C2_risk_selector_witness :
    objectiveFor "Medium" = .maxQuadraticUtility ∧
    objectiveFor "Low" = .minVolatility ∧ objectiveFor "High" = .maxSharpe := by
  have h := C2_risk_selector (n := 1) ![0] ![0] ![![0]] 0 1 ![1] "Medium"
    ⟨by decide, by decide⟩
  exact ⟨h.2.2.1, h.1, h.2.1⟩

/-- C8: whenever a Low solution (variance minimization) and a High solution
(Sharpe-ratio maximization) both exist for the same returns, covariance and
bound, the Low solution's portfolio variance — hence its expected
volatility — is at most the High solution's. -/
theorem C8_low_vol_le_high_vol {n : ℕ} (mu : Fin n → ℚ) (S : Fin n → Fin n → ℚ)
    (rf u : ℚ) (wL wH : Fin n → ℚ)
    (hL : isOptimalFor .minVolatility mu S rf u wL)
    (hH : isOptimalFor .maxSharpe mu S rf u wH) :
    quadForm S wL ≤ quadForm S wH ∧
    expectedVolatility S wL ≤ expectedVolatility S wH := by
  have hvar : quadForm S wL ≤ quadForm S wH := hL.2 wH hH.1
  refine ⟨hvar, ?_⟩
  unfold expectedVolatility
  exact Real.sqrt_le_sqrt (by exact_mod_cast hvar)

/-- C5: the three performance scalars of the final weights are
`expected_return = wᵗ mu`, `expected_volatility = sqrt(wᵗ S w)` and
`sharpe_ratio = (expected_return − r_f) / expected_volatility`; for a
positive-semidefinite risk model the volatility is zero exactly when
`wᵗ S w = 0`, and in that case the performance computation fails with the
degenerate-solution error instead of reporting a Sharpe ratio. -/
theorem C5_performance {n : ℕ} (mu : Fin n → ℚ) (S : Fin n → Fin n → ℚ)
    (rf : ℚ) (w : Fin n → ℚ) (hS : 0 ≤ quadForm S w) :
    expectedReturn mu w = dot w mu ∧
    expectedVolatility S w = Real.sqrt ((quadForm S w : ℚ) : ℝ) ∧
    sharpeRatio mu S rf w
      = ((expectedReturn mu w - rf : ℚ) : ℝ) / expectedVolatility S w ∧
    (expectedVolatility S w = 0 ↔ quadForm S w = 0) ∧
    (quadForm S w = 0 → portfolioPerformance mu S w = .error .degenerateSolution) ∧
    (quadForm S w ≠ 0 →
      portfolioPerformance mu S w = .ok (expectedReturn mu w, quadForm S w)) := by
  refine ⟨rfl, rfl, rfl, ?_, ?_, ?_⟩
  · unfold expectedVolatility
    rw [Real.sqrt_eq_zero']
    constructor
    · intro h
      have h' : quadForm S w ≤ 0 := by exact_mod_cast h
      exact le_antisymm h' hS
    · intro h
      rw [h]
      simp
  · intro h
    unfold portfolioPerformance
    rw [if_pos h]
  · intro h
    unfold portfolioPerformance
    rw [if_neg h]

/-- Witness for C5: a one-asset holding with variance 4 reports return and
variance, while a zero-variance holding fails with the degenerate error. -/
theorem C5_performance_witness :
    portfolioPerformance ![(1 : ℚ)/10] ![![(4 : ℚ)]] ![1] = .ok (1/10, 4) ∧
    portfolioPerformance ![(1 : ℚ)/10] ![![(0 : ℚ)]] ![1]
      = .error .degenerateSolution := by
  have hq4 : quadForm ![![(4 : ℚ)]] ![1] = 4 := by
    simp [quadForm, Fin.sum_univ_one]
  have hq0 : quadForm ![![(0 : ℚ)]] ![1] = 0 := by
    simp [quadForm, Fin.sum_univ_one]
  have hr : expectedReturn ![(1 : ℚ)/10] ![1] = 1/10 := by
    simp [expectedReturn, dot, Fin.sum_univ_one]
  constructor
  · rw [(C5_performance ![(1 : ℚ)/10] ![![(4 : ℚ)]] 0 ![1] (by rw [hq4]; norm_num)).2.2.2.2.2
      (by rw [hq4]; norm_num), hq4, hr]
  · exact (C5_performance ![(1 : ℚ)/10] ![![(0 : ℚ)]] 0 ![1] (by rw [hq0])).2.2.2.2.1 hq0

/-! ## Lemmas on weight cleaning -/

theorem clipSmall_ge {n : ℕ} {cutoff : ℚ} (hc : 0 ≤ cutoff) (w : Fin n → ℚ) (i : Fin n) :
    w i - cutoff ≤ clipSmall cutoff w i := by
  unfold clipSmall
  split
  · rename_i h
    have := le_abs_self (w i)
    linarith
  · linarith

theorem clipSmall_nonneg {n : ℕ} {cutoff : ℚ} {w : Fin n → ℚ} (i : Fin n)
    (hw : 0 ≤ w i) : 0 ≤ clipSmall cutoff w i := by
  unfold clipSmall
  split
  · exact le_refl 0
  · exact hw

theorem sum_clipSmall_ge {n : ℕ} {cutoff : ℚ} (hc : 0 ≤ cutoff) {w : Fin n → ℚ}
    (hsum : ∑ i, w i = 1) :
    1 - (n : ℚ) * cutoff ≤ ∑ i, clipSmall cutoff w i := by
  have h1 : ∑ i : Fin n, (w i - cutoff) = 1 - (n : ℚ) * cutoff := by
    rw [Finset.sum_sub_distrib, hsum, Finset.sum_const, Finset.card_univ, Fintype.card_fin]
    simp [nsmul_eq_mul]
  calc (1 : ℚ) - (n : ℚ) * cutoff = ∑ i : Fin n, (w i - cutoff) := h1.symm
    _ ≤ ∑ i, clipSmall cutoff w i := Finset.sum_le_sum fun i _ => clipSmall_ge hc w i

/-- C4: the cleaning step clips every weight of absolute value below the
cutoff to exactly zero, and (when some weight survives) renormalizes so the
cleaned weights sum to exactly 1, preserving the relative proportions among
the retained assets. -/
theorem C4_clean_weights {n : ℕ} (cutoff : ℚ) (w : Fin n → ℚ)
    (hs : ∑ i, clipSmall cutoff w i ≠ 0) :
    (∀ i, |w i| < cutoff → cleanWeights cutoff w i = 0) ∧
    (∑ i, cleanWeights cutoff w i = 1) ∧
    (∀ i j, ¬ |w i| < cutoff → ¬ |w j| < cutoff →
      cleanWeights cutoff w i * w j = cleanWeights cutoff w j * w i) := by
  have hcw : cleanWeights cutoff w
      = fun i => clipSmall cutoff w i / ∑ k, clipSmall cutoff w k := by
    unfold cleanWeights
    rw [if_neg hs]
  refine ⟨?_, ?_, ?_⟩
  · intro i hi
    simp only [hcw]
    rw [show clipSmall cutoff w i = 0 from by unfold clipSmall; rw [if_pos hi]]
    simp
  · simp only [hcw]
    rw [← Finset.sum_div]
    exact div_self hs
  · intro i j hi hj
    simp only [hcw]
    unfold clipSmall
    rw [if_neg hi, if_neg hj]
    ring

/-- Witness for C4: with cutoff 1e-4, the weight vector (1/20000, 19999/20000)
has its tiny first weight clipped to zero and the cleaned weights sum to 1. -/
theorem C4_clean_weights_witness :
    cleanWeights (1/10000) ![(1 : ℚ)/20000, 19999/20000] 0 = 0 ∧
    ∑ i, cleanWeights (1/10000) ![(1 : ℚ)/20000, 19999/20000] i = 1 := by
  have habs0 : |(![(1 : ℚ)/20000, 19999/20000]) 0| < 1/10000 := by
    simp only [Matrix.cons_val_zero]
    rw [abs_of_pos (by norm_num : (0 : ℚ) < 1/20000)]
    norm_num
  have habs1 : ¬ |(![(1 : ℚ)/20000, 19999/20000]) 1| < 1/10000 := by
    simp only [Matrix.cons_val_one, Matrix.head_cons]
    rw [abs_of_pos (by norm_num : (0 : ℚ) < 19999/20000)]
    norm_num
  have hs : ∑ i, clipSmall (1/10000) ![(1 : ℚ)/20000, 19999/20000] i ≠ 0 := by
    have h0 : clipSmall (1/10000) ![(1 : ℚ)/20000, 19999/20000] 0 = 0 := by
      unfold clipSmall
      rw [if_pos habs0]
    have h1 : clipSmall (1/10000) ![(1 : ℚ)/20000, 19999/20000] 1 = 19999/20000 := by
      unfold clipSmall
      rw [if_neg habs1]
      simp
    rw [Fin.sum_univ_two, h0, h1]
    norm_num
  exact ⟨(C4_clean_weights _ _ hs).1 0 habs0, (C4_clean_weights _ _ hs).2.1⟩

/-! ## The infeasible-bound behaviour of a run -/

/-- C3 (amended): when `n·u < 1` the run fails — the infeasibility is
reported by the solver, the run delivers no allocation, and the single
failure message is shown — but the detection happens inside the solver
invocation, which does occur: the source has no feasibility check before
calling the objective, and no dedicated infeasible-constraint error exists. -/
theorem C3_infeasible_solver_invoked (md : MarketData) (riskLevel : String) (mw : ℕ)
    (hnu : (md.columns.length : ℚ) * maxWeightBound mw < 1) :
    appTrace modelSolve (.ok md) riskLevel mw
      = [.solverInvoked, .errorMsg .solverFailure] ∧
    Ev.solverInvoked ∈ appTrace modelSolve (.ok md) riskLevel mw ∧
    tableOf (appTrace modelSolve (.ok md) riskLevel mw) = none := by
  have hsolve : modelSolve (objectiveFor riskLevel) md.columns.length (muOf md)
      (covOf md) (maxWeightBound mw) = .error .solverFailure := by
    unfold modelSolve
    rw [if_neg (not_le.mpr hnu)]
  have htr : appTrace modelSolve (.ok md) riskLevel mw
      = [.solverInvoked, .errorMsg .solverFailure] := by
    show Ev.solverInvoked ::
        (match modelSolve (objectiveFor riskLevel) md.columns.length (muOf md)
            (covOf md) (maxWeightBound mw) with
          | .error e => [Ev.errorMsg e]
          | .ok w => renderResults md w) = _
    rw [hsolve]
  refine ⟨htr, ?_, ?_⟩
  · rw [htr]
    simp
  · rw [htr]
    rfl

/-- Witness for C3 (amended) at a concrete infeasible input: two assets and
a 25% cap. -/
theorem C3_infeasible_solver_invoked_witness :
    appTrace modelSolve (.ok mdTwoAssets) "Low" 25
      = [.solverInvoked, .errorMsg .solverFailure] :=
  (C3_infeasible_solver_invoked mdTwoAssets "Low" 25
    (by norm_num [maxWeightBound, show mdTwoAssets.columns.length = 2 from rfl])).1

/-- Counterexample to C3 as stated: on a concrete input with `n·u < 1`
(two assets, 25% cap, so `n·u = 1/2`), the solver is invoked — the run does
not fail before the solver call. -/
theorem C3_counterexample :
    ((mdTwoAssets.columns.length : ℚ) * maxWeightBound 25 < 1) ∧
    Ev.solverInvoked ∈ appTrace modelSolve (.ok mdTwoAssets) "Low" 25 := by
  constructor
  · norm_num [maxWeightBound, show mdTwoAssets.columns.length = 2 from rfl]
  · exact List.mem_cons_self _ _

/-! ## Error surfacing -/

theorem appTrace_ok (solve : SolveFn) (md : MarketData) (r : String) (mw : ℕ) :
    appTrace solve (.ok md) r mw
      = .solverInvoked ::
          (match solve (objectiveFor r) md.columns.length (muOf md) (covOf md)
              (maxWeightBound mw) with
            | .error e => [Ev.errorMsg e]
            | .ok w => renderResults md w) := rfl

theorem renderResults_eq (md : MarketData) (w : Fin md.columns.length → ℚ) :
    renderResults md w
      = .weightsTable ((List.finRange md.columns.length).map
            fun i => ((md.columns.get i).1, cleanWeights (1 / 10000) w i)) ::
        .pieChart ::
        (match portfolioPerformance (muOf md) (covOf md) (cleanWeights (1 / 10000) w) with
          | .error e => [Ev.errorMsg e]
          | .ok (r, v) => [Ev.perfMetrics r v, Ev.historyChart]) := rfl

theorem appTrace_ok_error {solve : SolveFn} {md : MarketData} {r : String} {mw : ℕ}
    {e : CoreError}
    (hs : solve (objectiveFor r) md.columns.length (muOf md) (covOf md)
      (maxWeightBound mw) = .error e) :
    appTrace solve (.ok md) r mw = [.solverInvoked, .errorMsg e] := by
  rw [appTrace_ok, hs]

theorem appTrace_ok_ok {solve : SolveFn} {md : MarketData} {r : String} {mw : ℕ}
    {w : Fin md.columns.length → ℚ}
    (hs : solve (objectiveFor r) md.columns.length (muOf md) (covOf md)
      (maxWeightBound mw) = .ok w) :
    appTrace solve (.ok md) r mw = .solverInvoked :: renderResults md w := by
  rw [appTrace_ok, hs]

theorem renderResults_error {md : MarketData} {w : Fin md.columns.length → ℚ}
    {e : CoreError}
    (hp : portfolioPerformance (muOf md) (covOf md) (cleanWeights (1 / 10000) w)
      = .error e) :
    renderResults md w
      = [.weightsTable ((List.finRange md.columns.length).map
            fun i => ((md.columns.get i).1, cleanWeights (1 / 10000) w i)),
         .pieChart, .errorMsg e] := by
  rw [renderResults_eq, hp]

theorem renderResults_perf {md : MarketData} {w : Fin md.columns.length → ℚ}
    {r : ℚ} {v : ℚ}
    (hp : portfolioPerformance (muOf md) (covOf md) (cleanWeights (1 / 10000) w)
      = .ok (r, v)) :
    renderResults md w
      = [.weightsTable ((List.finRange md.columns.length).map
            fun i => ((md.columns.get i).1, cleanWeights (1 / 10000) w i)),
         .pieChart, .perfMetrics r v, .historyChart] := by
  rw [renderResults_eq, hp]

theorem mdDegenerate_len : mdDegenerate.columns.length = 1 := rfl

theorem mdDegenerate_colPrices (i : Fin mdDegenerate.columns.length) :
    colPrices mdDegenerate i = [1, 1, 1] := by
  have hlt : i.val < 1 := i.isLt
  have hv : i.val = 0 := by omega
  have hi : i = ⟨0, Nat.one_pos⟩ := Fin.ext hv
  rw [hi]
  rfl

theorem dailyReturns_const_one : dailyReturns [(1 : ℚ), 1, 1] = [0, 0] := by
  norm_num [dailyReturns]

theorem mdDegenerate_cov (i j : Fin mdDegenerate.columns.length) :
    covOf mdDegenerate i j = 0 := by
  unfold covOf annualizedCov
  rw [mdDegenerate_colPrices i, mdDegenerate_colPrices j, dailyReturns_const_one]
  norm_num [sampleCovList, listMean]

theorem mdDegenerate_clean :
    cleanWeights (1 / 10000) (fun _ : Fin mdDegenerate.columns.length => (1 : ℚ))
      = fun _ => 1 := by
  have hclip : clipSmall (1 / 10000) (fun _ : Fin mdDegenerate.columns.length => (1 : ℚ))
      = fun _ => 1 := by
    funext i
    unfold clipSmall
    rw [if_neg (by rw [abs_one]; norm_num)]
  have hsum1 : ∑ i : Fin mdDegenerate.columns.length,
      clipSmall (1 / 10000) (fun _ => (1 : ℚ)) i = 1 := by
    simp only [hclip]
    simp [Fintype.card_fin, mdDegenerate_len]
  unfold cleanWeights
  rw [hsum1, if_neg one_ne_zero]
  funext i
  simp only [hclip]
  norm_num

theorem mdDegenerate_qf :
    quadForm (covOf mdDegenerate)
      (fun _ : Fin mdDegenerate.columns.length => (1 : ℚ)) = 0 := by
  unfold quadForm
  simp only [mdDegenerate_cov]
  simp

theorem mdDegenerate_trace :
    appTrace modelSolve (.ok mdDegenerate) "Medium" 100
      = [.solverInvoked, .weightsTable [(['A'], 1)], .pieChart,
         .errorMsg .degenerateSolution] := by
  have hsolve : modelSolve (objectiveFor "Medium") mdDegenerate.columns.length
      (muOf mdDegenerate) (covOf mdDegenerate) (maxWeightBound 100)
      = .ok (fun _ => 1) := by
    unfold modelSolve
    rw [if_pos (by rw [mdDegenerate_len]; norm_num [maxWeightBound])]
    exact congrArg Except.ok (funext fun _ => by rw [mdDegenerate_len]; norm_num)
  have hws : (List.finRange mdDegenerate.columns.length).map
      (fun i => ((mdDegenerate.columns.get i).1,
        cleanWeights (1 / 10000) (fun _ => (1 : ℚ)) i))
      = [(['A'], 1)] := by
    simp only [mdDegenerate_clean]
    rfl
  have hperf : portfolioPerformance (muOf mdDegenerate) (covOf mdDegenerate)
      (cleanWeights (1 / 10000) (fun _ => (1 : ℚ)))
      = .error .degenerateSolution := by
    rw [mdDegenerate_clean]
    unfold portfolioPerformance
    rw [if_pos mdDegenerate_qf]
  rw [appTrace_ok_ok hsolve, renderResults_error hperf, hws]

/-- C6 (amended): every error arising during one run is surfaced to the user
as a single human-readable failure message, which is the last output
delivered, and nothing is retried — the solver is invoked at most once per
run; however, outputs already rendered before the failing step remain
delivered, so a failure in the performance computation leaves the allocation
table and pie chart as a partial result next to the error message. -/
theorem C6_error_surfacing (solve : SolveFn) (dl : Except CoreError MarketData)
    (riskLevel : String) (mw : ℕ) :
    errorCount (appTrace solve dl riskLevel mw) ≤ 1 ∧
    (∀ e, Ev.errorMsg e ∈ appTrace solve dl riskLevel mw →
      (appTrace solve dl riskLevel mw).getLast? = some (.errorMsg e)) ∧
    (appTrace solve dl riskLevel mw).count .solverInvoked ≤ 1 := by
  rcases dl with e | md
  · refine ⟨by simp [appTrace, errorCount], ?_, by simp [appTrace]⟩
    intro e' he'
    simp only [appTrace, List.mem_singleton] at he'
    obtain rfl : e' = e := by injection he'
    rfl
  · rcases hs : solve (objectiveFor riskLevel) md.columns.length (muOf md) (covOf md)
        (maxWeightBound mw) with e | w
    · rw [appTrace_ok_error hs]
      refine ⟨by simp [errorCount], ?_, by simp⟩
      intro e' he'
      simp only [List.mem_cons, List.mem_singleton, List.not_mem_nil, or_false] at he'
      rcases he' with he' | he'
      · exact absurd he' (by simp)
      · obtain rfl : e' = e := by injection he'
        rfl
    · rw [appTrace_ok_ok hs]
      rcases hp : portfolioPerformance (muOf md) (covOf md) (cleanWeights (1 / 10000) w)
          with e | rv
      · rw [renderResults_error hp]
        refine ⟨by simp [errorCount], ?_, by simp⟩
        intro e' he'
        simp only [List.mem_cons, List.not_mem_nil, or_false] at he'
        rcases he' with he' | he' | he' | he'
        · exact absurd he' (by simp)
        · exact absurd he' (by simp)
        · exact absurd he' (by simp)
        · obtain rfl : e' = e := by injection he'
          rfl
      · rcases rv with ⟨r, v⟩
        rw [renderResults_perf hp]
        refine ⟨by simp [errorCount], ?_, by simp⟩
        intro e' he'
        simp only [List.mem_cons, List.not_mem_nil, or_false] at he'
        rcases he' with he' | he' | he' | he' | he' <;> exact absurd he' (by simp)

/-- Witness for C6 at the degenerate concrete input: the error message is
the last delivered output. -/
theorem C6_error_surfacing_witness :
    (appTrace modelSolve (.ok mdDegenerate) "Medium" 100).getLast?
      = some (.errorMsg .degenerateSolution) :=
  (C6_error_surfacing modelSolve (.ok mdDegenerate) "Medium" 100).2.1 .degenerateSolution
    (by rw [mdDegenerate_trace]; simp)

/-- Counterexample to C6 as stated: on the constant-price single-asset
input, the degenerate-solution failure is surfaced only after the allocation
table and pie chart were rendered — the error message is accompanied by a
partial result, not by no result. -/
theorem C6_counterexample :
    Ev.weightsTable [(['A'], 1)] ∈ appTrace modelSolve (.ok mdDegenerate) "Medium" 100 ∧
    Ev.errorMsg .degenerateSolution
      ∈ appTrace modelSolve (.ok mdDegenerate) "Medium" 100 := by
  rw [mdDegenerate_trace]
  constructor <;> simp

/-! ## Determinism of a run -/

theorem zip_self_eq {α : Type} (l : List α) : ∀ p ∈ l.zip l, p.1 = p.2 := by
  induction l with
  | nil => simp
  | cons a t ih =>
    intro p hp
    rw [List.zip_cons_cons] at hp
    rcases List.mem_cons.mp hp with rfl | hp'
    · rfl
    · exact ih p hp'

/-- C7: two runs on identical downloaded data, risk preference and bound
produce identical traces — in particular allocation tables whose
corresponding weights differ by at most 1e-6; the embedded pipeline is a
pure function of the request inputs, with no state outside the request. -/
theorem C7_determinism (solve : SolveFn) (dl₁ dl₂ : Except CoreError MarketData)
    (r₁ r₂ : String) (m₁ m₂ : ℕ)
    (h : dl₁ = dl₂ ∧ r₁ = r₂ ∧ m₁ = m₂) :
    appTrace solve dl₁ r₁ m₁ = appTrace solve dl₂ r₂ m₂ ∧
    (∀ ws₁ ws₂, tableOf (appTrace solve dl₁ r₁ m₁) = some ws₁ →
      tableOf (appTrace solve dl₂ r₂ m₂) = some ws₂ →
      ∀ p ∈ ws₁.zip ws₂, |p.1.2 - p.2.2| ≤ 1 / 1000000) := by
  obtain ⟨rfl, rfl, rfl⟩ := h
  refine ⟨rfl, ?_⟩
  intro ws₁ ws₂ h₁ h₂ p hp
  rw [h₁] at h₂
  obtain rfl : ws₁ = ws₂ := Option.some_injective _ h₂
  have hpp := zip_self_eq ws₁ p hp
  rw [hpp]
  simp

/-- Witness for C7: the same failed download twice yields the same trace. -/
theorem C7_determinism_witness :
    appTrace modelSolve (.error .dataFetch) "Low" 40
      = appTrace modelSolve (.error .dataFetch) "Low" 40 :=
  (C7_determinism modelSolve (.error .dataFetch) (.error .dataFetch) "Low" "Low" 40 40
    ⟨rfl, rfl, rfl⟩).1

/-! ## The allocation invariants -/

theorem tableOf_render (md : MarketData) (w : Fin md.columns.length → ℚ) :
    tableOf (.solverInvoked :: renderResults md w)
      = some ((List.finRange md.columns.length).map
          fun i => ((md.columns.get i).1, cleanWeights (1 / 10000) w i)) := by
  rw [renderResults_eq]
  rfl

/-- C1 (amended): for every optimal solution of any of the three objectives
on a valid input, the solver weights lie in `[0, u]` and sum to exactly 1;
the cleaned weights are nonnegative and sum to exactly 1, and the delivered
table's keys are exactly the downloaded columns (the requested tickers) —
but a cleaned weight is only bounded by `u / (1 − n·cutoff)`, which can
slightly exceed `u` (see the counterexample). -/
theorem C1_allocation_invariants {n : ℕ} (obj : Objective) (mu : Fin n → ℚ)
    (S : Fin n → Fin n → ℚ) (rf u : ℚ) (w : Fin n → ℚ)
    (hopt : isOptimalFor obj mu S rf u w) (hn : (n : ℚ) * (1 / 10000) < 1) :
    (∀ i, 0 ≤ w i ∧ w i ≤ u) ∧
    (∑ i, w i = 1) ∧
    (∀ i, 0 ≤ cleanWeights (1 / 10000) w i) ∧
    (∑ i, cleanWeights (1 / 10000) w i = 1) ∧
    (∀ i, cleanWeights (1 / 10000) w i ≤ u / (1 - (n : ℚ) * (1 / 10000))) ∧
    (∀ (solve : SolveFn) (md : MarketData) (riskLevel : String) (mw : ℕ)
      (ws : List (List Char × ℚ)),
      tableOf (appTrace solve (.ok md) riskLevel mw) = some ws →
      ws.map Prod.fst = md.columns.map Prod.fst) := by
  have hfeas := isOptimalFor_feasible hopt
  have hcut : (0 : ℚ) ≤ 1 / 10000 := by norm_num
  have hsge : 1 - (n : ℚ) * (1 / 10000) ≤ ∑ i, clipSmall (1 / 10000) w i :=
    sum_clipSmall_ge hcut hfeas.2
  have hspos : 0 < ∑ i, clipSmall (1 / 10000) w i := lt_of_lt_of_le (by linarith) hsge
  have hsne : (∑ i, clipSmall (1 / 10000) w i) ≠ 0 := ne_of_gt hspos
  have hn0 : 0 < n := by
    rcases Nat.eq_zero_or_pos n with h0 | h
    · exfalso
      have := hfeas.2
      subst h0
      simp at this
    · exact h
  have hu0 : 0 ≤ u := le_trans (hfeas.1 ⟨0, hn0⟩).1 (hfeas.1 ⟨0, hn0⟩).2
  have hcw : cleanWeights (1 / 10000) w
      = fun i => clipSmall (1 / 10000) w i / ∑ k, clipSmall (1 / 10000) w k := by
    unfold cleanWeights
    rw [if_neg hsne]
  refine ⟨hfeas.1, hfeas.2, ?_, ?_, ?_, ?_⟩
  · intro i
    simp only [hcw]
    exact div_nonneg (clipSmall_nonneg i (hfeas.1 i).1) hspos.le
  · simp only [hcw]
    rw [← Finset.sum_div]
    exact div_self hsne
  · intro i
    simp only [hcw]
    have hclip_le : clipSmall (1 / 10000) w i ≤ u := by
      unfold clipSmall
      split
      · exact hu0
      · exact (hfeas.1 i).2
    exact div_le_div₀ hu0 hclip_le (by linarith) hsge
  · intro solve md riskLevel mw ws hws
    rcases hs : solve (objectiveFor riskLevel) md.columns.length (muOf md) (covOf md)
        (maxWeightBound mw) with e | w'
    · rw [appTrace_ok_error hs,
        show tableOf [Ev.solverInvoked, Ev.errorMsg e] = none from rfl] at hws
      exact absurd hws (by simp)
    · rw [appTrace_ok_ok hs, tableOf_render] at hws
      obtain rfl : ws = _ := (Option.some_injective _ hws.symm)
      rw [List.map_map]
      conv_rhs => rw [← List.finRange_map_get md.columns, List.map_map]
      rfl

/-- Witness for C1 (amended) at a one-asset instance with bound 1. -/
theorem C1_allocation_invariants_witness :
    (∑ i, cleanWeights (1 / 10000) (![1] : Fin 1 → ℚ) i = 1) ∧
    cleanWeights (1 / 10000) (![1] : Fin 1 → ℚ) 0 ≤ 1 / (1 - (1 : ℚ) * (1 / 10000)) := by
  have hfeas : feasible (1 : ℚ) (![1] : Fin 1 → ℚ) := by
    constructor
    · intro i
      fin_cases i
      norm_num
    · simp [Fin.sum_univ_one]
  have hopt : isOptimalFor .minVolatility ![0] ![![4]] 0 1 (![1] : Fin 1 → ℚ) :=
    ⟨hfeas, fun w' hw' => by rw [feasible_fin_one hw']⟩
  have h := C1_allocation_invariants .minVolatility ![0] ![![4]] 0 1 ![1] hopt
    (by norm_num)
  exact ⟨h.2.2.2.1, by
    have := h.2.2.2.2.1 0
    simpa using this⟩

/-- Counterexample to C1 as stated: a valid three-asset input
(`n·u = 3/2 ≥ 1`) whose minimum-variance solution is exactly
`(1/2, 9999/20000, 1/20000)`; after cleaning, the first weight becomes
`10000/19999 > 1/2 = u`, violating the claimed bound `w ≤ u`. -/
theorem C1_counterexample :
    isOptimalFor .minVolatility (![0, 0, 0])
      ![![(1 : ℚ)/2, 0, 0], ![0, 1, 0], ![0, 0, 9999]] 0 (1/2)
      ![1/2, 9999/20000, 1/20000] ∧
    1 ≤ (3 : ℚ) * (1/2) ∧
    1/2 < cleanWeights (1 / 10000) ![(1 : ℚ)/2, 9999/20000, 1/20000] 0 := by
  have hq : ∀ v : Fin 3 → ℚ,
      quadForm ![![(1 : ℚ)/2, 0, 0], ![0, 1, 0], ![0, 0, 9999]] v
        = (1/2) * (v 0)^2 + (v 1)^2 + 9999 * (v 2)^2 := by
    intro v
    unfold quadForm
    rw [Fin.sum_univ_three, Fin.sum_univ_three, Fin.sum_univ_three, Fin.sum_univ_three]
    rw [show (![![(1 : ℚ)/2, 0, 0], ![0, 1, 0], ![0, 0, 9999]]) 0 0 = 1/2 from rfl,
      show (![![(1 : ℚ)/2, 0, 0], ![0, 1, 0], ![0, 0, 9999]]) 0 1 = 0 from rfl,
      show (![![(1 : ℚ)/2, 0, 0], ![0, 1, 0], ![0, 0, 9999]]) 0 2 = 0 from rfl,
      show (![![(1 : ℚ)/2, 0, 0], ![0, 1, 0], ![0, 0, 9999]]) 1 0 = 0 from rfl,
      show (![![(1 : ℚ)/2, 0, 0], ![0, 1, 0], ![0, 0, 9999]]) 1 1 = 1 from rfl,
      show (![![(1 : ℚ)/2, 0, 0], ![0, 1, 0], ![0, 0, 9999]]) 1 2 = 0 from rfl,
      show (![![(1 : ℚ)/2, 0, 0], ![0, 1, 0], ![0, 0, 9999]]) 2 0 = 0 from rfl,
      show (![![(1 : ℚ)/2, 0, 0], ![0, 1, 0], ![0, 0, 9999]]) 2 1 = 0 from rfl,
      show (![![(1 : ℚ)/2, 0, 0], ![0, 1, 0], ![0, 0, 9999]]) 2 2 = 9999 from rfl]
    ring
  refine ⟨⟨?_, ?_⟩, by norm_num, ?_⟩
  · constructor
    · intro i
      fin_cases i <;> norm_num
    · rw [Fin.sum_univ_three]
      norm_num
  · intro w' hw'
    obtain ⟨hb, hsum⟩ := hw'
    rw [Fin.sum_univ_three] at hsum
    have h0 := hb 0
    rw [hq, hq]
    rw [show (![(1 : ℚ)/2, 9999/20000, 1/20000]) 0 = 1/2 from rfl,
      show (![(1 : ℚ)/2, 9999/20000, 1/20000]) 1 = 9999/20000 from rfl,
      show (![(1 : ℚ)/2, 9999/20000, 1/20000]) 2 = 1/20000 from rfl]
    nlinarith [sq_nonneg (w' 0 - 1/2), sq_nonneg (w' 1 - 9999/20000),
      sq_nonneg (w' 2 - 1/20000), h0.2, hsum]
  · have hclip0 : clipSmall (1 / 10000) ![(1 : ℚ)/2, 9999/20000, 1/20000] 0 = 1/2 := by
      unfold clipSmall
      rw [if_neg (by
        rw [show (![(1 : ℚ)/2, 9999/20000, 1/20000]) 0 = 1/2 from rfl,
          abs_of_pos (by norm_num : (0 : ℚ) < 1/2)]
        norm_num)]
      rfl
    have hclip1 : clipSmall (1 / 10000) ![(1 : ℚ)/2, 9999/20000, 1/20000] 1
        = 9999/20000 := by
      unfold clipSmall
      rw [if_neg (by
        rw [show (![(1 : ℚ)/2, 9999/20000, 1/20000]) 1 = 9999/20000 from rfl,
          abs_of_pos (by norm_num : (0 : ℚ) < 9999/20000)]
        norm_num)]
      rfl
    have hclip2 : clipSmall (1 / 10000) ![(1 : ℚ)/2, 9999/20000, 1/20000] 2 = 0 := by
      unfold clipSmall
      rw [if_pos (by
        rw [show (![(1 : ℚ)/2, 9999/20000, 1/20000]) 2 = 1/20000 from rfl,
          abs_of_pos (by norm_num : (0 : ℚ) < 1/20000)]
        norm_num)]
    have hsum3 : (∑ i, clipSmall (1 / 10000) ![(1 : ℚ)/2, 9999/20000, 1/20000] i)
        = 19999/20000 := by
      rw [Fin.sum_univ_three, hclip0, hclip1, hclip2]
      norm_num
    unfold cleanWeights
    rw [hsum3, if_neg (by norm_num)]
    rw [hclip0]
    norm_num

/-- Witness for C8 at a one-asset instance, where the single feasible point
is optimal for both objectives. -/
theorem C8_low_vol_le_high_vol_witness :
    expectedVolatility ![![(4 : ℚ)]] ![1] ≤ expectedVolatility ![![(4 : ℚ)]] ![1] := by
  have hfeas : feasible (1 : ℚ) (![1] : Fin 1 → ℚ) := by
    constructor
    · intro i
      fin_cases i
      norm_num
    · simp [Fin.sum_univ_one]
  refine (C8_low_vol_le_high_vol (n := 1) ![0] ![![4]] 0 1 ![1] ![1]
    ⟨hfeas, ?_⟩ ⟨hfeas, ?_⟩).2
  · intro w' hw'
    rw [feasible_fin_one hw']
  · intro w' hw'
    rw [feasible_fin_one hw']

end PortfolioOpt
